import Mathlib

/-!
Verification of the `play_ranking` crate (src/lib.rs, src/formatters.rs).

The Rust code is embedded shallowly:

* `f64` scores are idealized as exact rationals `ℚ` (the data model restricts
  scores to finite reals; floating-point rounding error is outside the model).
  The separate `PlayLogF` embedding models the possibility of a NaN score as
  `Option ℚ` (`none` = NaN) in order to reason about the comparison-failure
  path of `top_rankings`.
* `DateTime<Local>` is carried only as provenance; it is modelled as an
  opaque integer tag `ℤ` inside `PlayLog`, and the timestamp *parsing* of
  `formatters.rs` is modelled separately over `List Char` with a faithful
  model of chrono's `NaiveDateTime::parse_from_str` on the fixed format
  string `"%Y/%m/%d %H:%M:%S"`.
* `Vec::sort_by` is a stable sort by a user comparator; it is modelled by a
  stable insertion sort driven by the same comparator
  (`b.score().partial_cmp(&a.score())`, i.e. descending by raw score).
* The `HashMap<String, i32>` of play counts is modelled as a total function
  `String → Nat` (absent key ↦ 0, matching `or_insert(0)`).
* The `prev_score = f64::MAX` sentinel of `top_rankings` is an ordinary
  finite float; it is modelled as the exact integer value of `f64::MAX`,
  `fMaxZ = (2^53 - 1) * 2^971`, so a record whose score rounds to exactly
  that value ties the sentinel just as in the Rust program.
-/

set_option maxRecDepth 16384

namespace PlayRanking

/-- The `PlayLog` struct of src/lib.rs: `player_id : String`, `score : f64`
(idealized as `ℚ`), `create_timestamp : DateTime<Local>` (opaque tag). -/
structure PlayLog where
  player_id : String
  score : ℚ
  create_timestamp : ℤ
deriving DecidableEq

/-- Rust `f64::round`: round half away from zero.  For `q = n/d` (`d > 0`)
the value is `⌊q + 1/2⌋` when `0 ≤ q` and `-⌊-q + 1/2⌋` otherwise; `q + 1/2`
is built as `mkRat (2n + d) (2d)` so that the kernel can evaluate it
(see `roundQ_eq` below for the textbook form). -/
def roundQ (q : ℚ) : ℤ :=
  if 0 ≤ q then (mkRat (2 * q.num + q.den) (2 * q.den)).floor
  else -(mkRat (2 * -q.num + q.den) (2 * q.den)).floor

/-- The sort comparator of line 101 of src/lib.rs,
`|a, b| b.score().partial_cmp(&a.score()).unwrap()`, total on idealized
(finite) scores: descending comparison of raw scores. -/
def cmpD (a b : PlayLog) : Ordering :=
  if b.score < a.score then .lt else if a.score < b.score then .gt else .eq

/-- Stable insertion of `a` into `l` for the comparator `cmpD`: `a` is placed
before the first element not strictly ordered before it, so elements inserted
earlier (coming later in the input) never jump over equal elements. -/
def insertD (a : PlayLog) : List PlayLog → List PlayLog
  | [] => [a]
  | b :: l => if cmpD a b = .gt then b :: insertD a l else a :: b :: l

/-- `records.sort_by(|a, b| b.score().partial_cmp(&a.score()).unwrap())`:
stable sort, descending by raw score, modelled as stable insertion sort. -/
def sortD (l : List PlayLog) : List PlayLog := l.foldr insertD []

/-- The exact integer value of `f64::MAX`, namely `(2^53 - 1) * 2^971`.
Line 103 of src/lib.rs initializes `prev_score = f64::MAX`: this is an
ordinary finite value, and a record whose score rounds to exactly this
integer compares equal to the sentinel (`f64::MAX.round() == f64::MAX`). -/
def fMaxZ : ℤ := ((2 ^ 53 - 1) * 2 ^ 971 : ℕ)

/-- The loop of lines 103–117 of `top_rankings`, with state
`prev_score`/`prev_rank`/`i`.  `prev : ℤ` holds the previous rounded score;
all compared values (`f64::MAX` and `score.round()`) are integer-valued
floats, idealized as integers. -/
def rankLoop (prev : ℤ) (prevRank i topK : Nat) :
    List PlayLog → List (Nat × PlayLog)
  | [] => []
  | e :: rest =>
    let sc := roundQ e.score
    if topK ≤ i ∧ prev ≠ sc then []
    else
      let rank := if prev = sc then prevRank else i + 1
      (rank, e) :: rankLoop sc rank (i + 1) topK rest

/-- The list produced by `top_rankings(top_rank)` on input `l`, starting
from the `f64::MAX` sentinel and `prev_rank = 0`. -/
def resList (l : List PlayLog) (topK : Nat) : List (Nat × PlayLog) :=
  rankLoop fMaxZ 0 0 topK (sortD l)

/-- `top_rankings` of src/lib.rs (lines 97–119): sort a clone of the input
descending by raw score, then run the ranking loop; the body only ever
returns `Ok`. -/
def topRankings (l : List PlayLog) (topK : Nat) :
    Except String (List (Nat × PlayLog)) :=
  .ok (resList l topK)

/-- One update of `mean`'s accumulator `res` (lines 79–88): find the first
record whose id matches `e`'s and replace its score by
`score/(k+1)*k + e.score/(k+1)` where `k` is the current play count;
`none` when no record matches (the `else` branch pushes a clone). -/
def meanUpdate (counts : String → Nat) (e : PlayLog) :
    List PlayLog → Option (List PlayLog)
  | [] => none
  | r :: rs =>
    if r.player_id = e.player_id then
      let k : ℚ := (counts r.player_id : ℚ)
      some ({ r with score := r.score / (k + 1) * k + e.score / (k + 1) } :: rs)
    else
      (meanUpdate counts e rs).map (r :: ·)

/-- One iteration of the `for` loop of `mean` (lines 78–93), acting on the
state `(res, play_counts)`. -/
def meanStep (st : List PlayLog × (String → Nat)) (e : PlayLog) :
    List PlayLog × (String → Nat) :=
  match meanUpdate st.2 e st.1 with
  | some res => (res, fun x => if x = e.player_id then st.2 x + 1 else st.2 x)
  | none => (st.1 ++ [e], fun x => if x = e.player_id then 1 else st.2 x)

/-- `mean` of src/lib.rs (lines 74–95). -/
def mean (l : List PlayLog) : List PlayLog :=
  (l.foldl meanStep ([], fun _ => 0)).1

/-- The records of `l` carrying `pid` (used to state mean correctness). -/
def occs (l : List PlayLog) (pid : String) : List PlayLog :=
  l.filter (fun r => r.player_id = pid)

/-- First-seen deduplication of a list of ids: keeps the first occurrence of
each id, in order of first appearance (formalizes the spec's
"first-seen order"). -/
def dedupFirst : List String → List String
  | [] => []
  | x :: xs => x :: dedupFirst (xs.filter (fun y => y ≠ x))
termination_by l => l.length
decreasing_by
  simp only [List.length_cons]
  exact Nat.lt_succ_of_le (List.length_filter_le _ _)

/-- Length of the initial run of records whose rounded score equals the
running `prev_score`, starting from `p` (mirrors the loop once `i ≥ topK`). -/
def chainLen (p : ℤ) : List PlayLog → Nat
  | [] => 0
  | e :: rest =>
    if p = roundQ e.score then 1 + chainLen (roundQ e.score) rest else 0

/-- The fold invariant of `mean`: after consuming the records `seen`, the
counts map holds each player's number of plays so far, the accumulator holds
one record per player id in first-seen order, each accumulated score is the
exact mean of the player's scores seen so far, and each accumulated record
retains the id and timestamp of the player's first record. -/
def MeanInv (seen : List PlayLog) (st : List PlayLog × (String → Nat)) : Prop :=
  (∀ pid, st.2 pid = (occs seen pid).length) ∧
  st.1.map (fun r => r.player_id) = dedupFirst (seen.map (fun r => r.player_id)) ∧
  (∀ r ∈ st.1,
    r.score = ((occs seen r.player_id).map (fun x => x.score)).sum /
      ((occs seen r.player_id).length : ℚ)) ∧
  (∀ r ∈ st.1, ∃ r0,
    seen.find? (fun x => x.player_id = r.player_id) = some r0 ∧
    r0.player_id = r.player_id ∧ r0.create_timestamp = r.create_timestamp)

/-- The `PlayLog` struct with a possibly-NaN score: `none` models an IEEE
NaN, `some q` a finite score.  Used to reason about the comparison-failure
path of `top_rankings` (`partial_cmp(..).unwrap()` on line 101). -/
structure PlayLogF where
  player_id : String
  score : Option ℚ
  create_timestamp : ℤ
deriving DecidableEq

/-- `b.score().partial_cmp(&a.score())` on possibly-NaN scores: `none`
exactly when either operand is NaN. -/
def pcmpF (a b : PlayLogF) : Option Ordering :=
  match b.score, a.score with
  | some x, some y => some (if x < y then .lt else if y < x then .gt else .eq)
  | _, _ => none

/-- Stable insertion in the panic monad: `none` propagates the `unwrap`
panic of the sort comparator when a comparison involves a NaN score. -/
def insertF (a : PlayLogF) : List PlayLogF → Option (List PlayLogF)
  | [] => some [a]
  | b :: l =>
    match pcmpF a b with
    | none => none
    | some .gt => (insertF a l).map (b :: ·)
    | some _ => some (a :: b :: l)

/-- The sort of line 101 over possibly-NaN scores; `none` models the panic
of `partial_cmp(..).unwrap()` during sorting. -/
def sortF (l : List PlayLogF) : Option (List PlayLogF) :=
  l.foldr (fun e acc => acc >>= insertF e) (some [])

/-- `f64::round` lifted to possibly-NaN scores (`round` of NaN is NaN). -/
def roundF (q : Option ℚ) : Option ℤ := q.map roundQ

/-- Rust `f64` equality on possibly-NaN rounded values, used for
`prev_score == score`: false whenever either side is NaN (`none`). -/
def eqF : Option ℤ → Option ℤ → Bool
  | some x, some y => x = y
  | _, _ => false

/-- The ranking loop of lines 103–117 over possibly-NaN scores;
`prev : Option ℤ` is a possibly-NaN `f64`, initially `some fMaxZ`
(the finite `f64::MAX` sentinel).  Rounding and the `==`/`!=` comparisons
are total in Rust even on NaN, so the loop itself cannot fail. -/
def rankLoopF (prev : Option ℤ) (prevRank i topK : Nat) :
    List PlayLogF → List (Nat × PlayLogF)
  | [] => []
  | e :: rest =>
    let sc := roundF e.score
    if topK ≤ i ∧ ¬eqF prev sc then []
    else
      let rank := if eqF prev sc then prevRank else i + 1
      (rank, e) :: rankLoopF sc rank (i + 1) topK rest

/-- `top_rankings` over possibly-NaN scores.  The outer `Option` is the
panic effect (`none` = the function panics); the `Except` mirrors the Rust
`Result` return type, whose `Err` variant the body never constructs: the
only `return` is `Ok(res)` on line 118. -/
def topRankingsF (l : List PlayLogF) (topK : Nat) :
    Option (Except String (List (Nat × PlayLogF))) :=
  (sortF l).map (fun s => Except.ok (rankLoopF (some fMaxZ) 0 0 topK s))

/-- A parsed `NaiveDateTime` (chrono), field by field. -/
structure NaiveDT where
  year : ℕ
  month : ℕ
  day : ℕ
  hour : ℕ
  minute : ℕ
  second : ℕ
deriving DecidableEq

/-- Gregorian leap-year test. -/
def isLeapYear (y : ℕ) : Bool := (y % 4 = 0 ∧ y % 100 ≠ 0) ∨ y % 400 = 0

/-- Number of days in a month (chrono validates days against this). -/
def daysInMonth (y m : ℕ) : ℕ :=
  if m = 2 then (if isLeapYear y then 29 else 28)
  else if m = 4 ∨ m = 6 ∨ m = 9 ∨ m = 11 then 30
  else 31

/-- Take up to `maxW` leading decimal digits. -/
def readDigits : ℕ → List Char → List Char × List Char
  | 0, l => ([], l)
  | _ + 1, [] => ([], [])
  | n + 1, c :: l =>
    if c.isDigit then
      let (ds, r) := readDigits n l
      (c :: ds, r)
    else ([], c :: l)

/-- Numeric value of a digit string. -/
def digitsVal (ds : List Char) : ℕ :=
  ds.foldl (fun a c => a * 10 + (c.toNat - 48)) 0

/-- chrono's numeric-field scanner: between 1 and `maxW` digits. -/
def parseNum (maxW : ℕ) (l : List Char) : Option (ℕ × List Char) :=
  let (ds, r) := readDigits maxW l
  if ds.isEmpty then none else some (digitsVal ds, r)

/-- A literal character of the format string must match exactly. -/
def expectChar (c : Char) : List Char → Option (List Char)
  | [] => none
  | x :: l => if x = c then some l else none

/-- chrono's `Item::Space`: skips zero or more whitespace characters. -/
def skipSpaces : List Char → List Char
  | [] => []
  | c :: l => if c.isWhitespace then skipSpaces l else c :: l

/-- chrono's `NaiveDateTime::parse_from_str` on the fixed format string
`"%Y/%m/%d %H:%M:%S"`: numeric fields scan up to 4 (year) or 2 digits,
literals must match, the single space skips any whitespace, the whole input
must be consumed, and the field values must form a valid date-time. -/
def parseFormat (l : List Char) : Option NaiveDT := do
  let (y, l) ← parseNum 4 l
  let l ← expectChar '/' l
  let (mo, l) ← parseNum 2 l
  let l ← expectChar '/' l
  let (d, l) ← parseNum 2 l
  let l := skipSpaces l
  let (h, l) ← parseNum 2 l
  let l ← expectChar ':' l
  let (mi, l) ← parseNum 2 l
  let l ← expectChar ':' l
  let (s, l) ← parseNum 2 l
  if l = [] ∧ 1 ≤ mo ∧ mo ≤ 12 ∧ 1 ≤ d ∧ d ≤ daysInMonth y mo ∧
      h < 24 ∧ mi < 60 ∧ s < 60 then
    some ⟨y, mo, d, h, mi, s⟩
  else none

/-- Append `":00"` the given number of times. -/
def padTimeAux : ℕ → List Char → List Char
  | 0, l => l
  | n + 1, l => padTimeAux n (l ++ [':', '0', '0'])

/-- The zero-padding loop of `datetime_serde_format::deserialize`
(formatters.rs lines 22–28): `while colon_count < 2 { s.push_str(":00");
colon_count += 1 }` — the loop body runs exactly `2 - c` times where `c` is
the starting colon count (each `":00"` adds exactly one colon). -/
def padTimeLoop (l : List Char) (c : ℕ) : List Char := padTimeAux (2 - c) l

/-- `datetime_serde_format::deserialize` (formatters.rs lines 17–36): count
the colons, zero-pad, then parse with `"%Y/%m/%d %H:%M:%S"`.  The final
`Local.from_local_datetime(..)` conversion is modelled as the identity on
the parsed naive value. -/
def deserializeDT (s : String) : Option NaiveDT :=
  parseFormat (padTimeLoop s.data (s.data.countP (fun c => c = ':')))

end PlayRanking

namespace PlayRanking

theorem ratFloor_eq (q : ℚ) : q.floor = ⌊q⌋ :=
  (Rat.floor_def' q).trans Rat.floor_def.symm

theorem half_mk (q : ℚ) : (mkRat (2 * q.num + q.den) (2 * q.den) : ℚ) = q + 1/2 := by
  have hd : ((q.den : ℚ)) ≠ 0 := by
    exact_mod_cast q.den_nz
  have hq : (q.num : ℚ) = q * q.den := (div_eq_iff hd).1 (Rat.num_div_den q)
  have h2 : ((2 * q.den : ℕ) : ℚ) ≠ 0 := by
    exact_mod_cast Nat.mul_ne_zero two_ne_zero q.den_nz
  rw [Rat.mkRat_eq_div, div_eq_iff h2]
  push_cast
  rw [hq]
  ring

/-- The textbook form of `roundQ`: round half away from zero. -/
theorem roundQ_eq (q : ℚ) :
    roundQ q = if 0 ≤ q then ⌊q + 1/2⌋ else -⌊-q + 1/2⌋ := by
  unfold roundQ
  have hneg : (mkRat (2 * -q.num + q.den) (2 * q.den) : ℚ) = -q + 1/2 := by
    have := half_mk (-q)
    rwa [Rat.neg_num, Rat.neg_den] at this
  split_ifs with h
  · rw [ratFloor_eq, half_mk]
  · rw [ratFloor_eq, hneg]

theorem roundQ_mono {q r : ℚ} (h : q ≤ r) : roundQ q ≤ roundQ r := by
  rw [roundQ_eq, roundQ_eq]
  split_ifs with h1 h2 h2
  · exact Int.floor_le_floor (by linarith)
  · linarith
  · have l1 : (0 : ℤ) ≤ ⌊r + 1/2⌋ := Int.le_floor.2 (by push_cast; linarith)
    have l2 : (0 : ℤ) ≤ ⌊-q + 1/2⌋ := Int.le_floor.2 (by push_cast; linarith)
    omega
  · have : ⌊-r + 1/2⌋ ≤ ⌊-q + 1/2⌋ := Int.floor_le_floor (by linarith)
    omega

theorem cmpD_gt_iff {a b : PlayLog} : cmpD a b = .gt ↔ a.score < b.score := by
  unfold cmpD
  split_ifs with h1 h2 <;> (simp_all; try linarith)

theorem cmpD_ne_gt {a b : PlayLog} : ¬cmpD a b = .gt ↔ b.score ≤ a.score := by
  rw [cmpD_gt_iff, not_lt]

theorem sortD_nil : sortD [] = [] := rfl

theorem sortD_cons (e : PlayLog) (t : List PlayLog) :
    sortD (e :: t) = insertD e (sortD t) := rfl

theorem length_insertD (a : PlayLog) (l : List PlayLog) :
    (insertD a l).length = l.length + 1 := by
  induction l with
  | nil => rfl
  | cons b t ih =>
    simp only [insertD]
    split_ifs <;> simp [ih]

theorem length_sortD (l : List PlayLog) : (sortD l).length = l.length := by
  induction l with
  | nil => rfl
  | cons e t ih =>
    rw [sortD_cons, length_insertD, ih, List.length_cons]

theorem mem_insertD {x a : PlayLog} {l : List PlayLog} :
    x ∈ insertD a l ↔ x = a ∨ x ∈ l := by
  induction l with
  | nil => simp [insertD]
  | cons b t ih =>
    simp only [insertD]
    split_ifs <;> (simp [ih]; try tauto)

theorem mem_sortD {x : PlayLog} {l : List PlayLog} : x ∈ sortD l ↔ x ∈ l := by
  induction l with
  | nil => simp [sortD]
  | cons e t ih =>
    rw [sortD_cons, mem_insertD]
    simp [ih]

theorem insertD_pairwise {a : PlayLog} {l : List PlayLog}
    (h : l.Pairwise (fun x y => y.score ≤ x.score)) :
    (insertD a l).Pairwise (fun x y => y.score ≤ x.score) := by
  induction l with
  | nil => simp [insertD]
  | cons b t ih =>
    rcases List.pairwise_cons.1 h with ⟨hb, ht⟩
    simp only [insertD]
    split_ifs with hgt
    · refine List.pairwise_cons.2 ⟨?_, ih ht⟩
      intro y hy
      rcases mem_insertD.1 hy with rfl | hy
      · exact le_of_lt (cmpD_gt_iff.1 hgt)
      · exact hb y hy
    · have hba : b.score ≤ a.score := cmpD_ne_gt.1 hgt
      refine List.pairwise_cons.2 ⟨?_, h⟩
      intro y hy
      rcases List.mem_cons.1 hy with rfl | hy
      · exact hba
      · exact le_trans (hb y hy) hba

theorem sortD_pairwise (l : List PlayLog) :
    (sortD l).Pairwise (fun x y => y.score ≤ x.score) := by
  induction l with
  | nil => simp [sortD]
  | cons e t ih =>
    rw [sortD_cons]
    exact insertD_pairwise ih

theorem filter_insertD (s : ℚ) (a : PlayLog) (l : List PlayLog) :
    (insertD a l).filter (fun r => r.score = s) =
      if a.score = s then a :: l.filter (fun r => r.score = s)
      else l.filter (fun r => r.score = s) := by
  induction l with
  | nil =>
    simp only [insertD, List.filter_cons, List.filter_nil]
    split_ifs with h <;> simp_all
  | cons b t ih =>
    by_cases hgt : cmpD a b = .gt
    · have hab : a.score < b.score := cmpD_gt_iff.1 hgt
      simp only [insertD, if_pos hgt, List.filter_cons, ih]
      by_cases has : a.score = s
      · have hbs : ¬b.score = s := by
          rw [← has]
          exact ne_of_gt hab
        simp [has, hbs]
      · simp [has]
    · simp only [insertD, if_neg hgt, List.filter_cons]
      split_ifs <;> simp_all

theorem filter_sortD (s : ℚ) (l : List PlayLog) :
    (sortD l).filter (fun r => r.score = s) = l.filter (fun r => r.score = s) := by
  induction l with
  | nil => rfl
  | cons e t ih =>
    rw [sortD_cons, filter_insertD]
    split_ifs with hes
    · simp [List.filter_cons, hes, ih]
    · simp [List.filter_cons, hes, ih]

theorem rankLoop_cons (p : ℤ) (r i k : Nat) (e : PlayLog)
    (t : List PlayLog) :
    rankLoop p r i k (e :: t) =
      if k ≤ i ∧ p ≠ roundQ e.score then []
      else
        ((if p = roundQ e.score then r else i + 1), e) ::
          rankLoop (roundQ e.score)
            (if p = roundQ e.score then r else i + 1) (i + 1) k t := rfl

theorem rankLoop_snd (p : ℤ) (r i k : Nat) (t : List PlayLog) :
    (rankLoop p r i k t).map Prod.snd = t.take (rankLoop p r i k t).length := by
  induction t generalizing p r i with
  | nil => rfl
  | cons e rest ih =>
    by_cases h : k ≤ i ∧ p ≠ roundQ e.score
    · rw [rankLoop_cons, if_pos h]
      rfl
    · rw [rankLoop_cons, if_neg h]
      simp only [List.map_cons, List.length_cons, List.take_succ_cons]
      rw [ih]

theorem rankLoop_length_le (p : ℤ) (r i k : Nat) (t : List PlayLog) :
    (rankLoop p r i k t).length ≤ t.length := by
  have h := congrArg List.length (rankLoop_snd p r i k t)
  rw [List.length_map, List.length_take] at h
  omega

theorem rankLoop_length_of_le {t : List PlayLog} :
    ∀ {p : ℤ} {r i k : Nat}, t.length ≤ k - i →
    (rankLoop p r i k t).length = t.length := by
  induction t with
  | nil => intro p r i k h; rfl
  | cons e rest ih =>
    intro p r i k h
    have hik : i < k := by
      simp only [List.length_cons] at h
      omega
    rw [rankLoop_cons, if_neg (fun hc => absurd hc.1 (by omega))]
    simp only [List.length_cons]
    rw [ih]
    simp only [List.length_cons] at h
    omega

theorem rankLoop_length_chain {t : List PlayLog} :
    ∀ {p : ℤ} {r i k : Nat}, k ≤ i →
    (rankLoop p r i k t).length = chainLen p t := by
  induction t with
  | nil => intro p r i k h; rfl
  | cons e rest ih =>
    intro p r i k h
    rw [rankLoop_cons, chainLen]
    by_cases hp : p = roundQ e.score
    · rw [if_neg (by simp [hp]), if_pos hp, if_pos hp]
      simp only [List.length_cons]
      rw [ih (by omega)]
      omega
    · rw [if_pos ⟨h, hp⟩, if_neg hp]
      rfl

theorem rankLoop_length_split {t : List PlayLog} :
    ∀ {p : ℤ} {r i k : Nat}, i < k → k - i ≤ t.length →
    ∃ e rest, t.drop (k - i - 1) = e :: rest ∧
      (rankLoop p r i k t).length = (k - i) + chainLen (roundQ e.score) rest := by
  induction t with
  | nil =>
    intro p r i k h1 h2
    simp only [List.length_nil] at h2
    omega
  | cons e rest ih =>
    intro p r i k hik hlen
    rw [rankLoop_cons, if_neg (fun hc => absurd hc.1 (by omega))]
    by_cases hk1 : i + 1 = k
    · refine ⟨e, rest, ?_, ?_⟩
      · rw [show k - i - 1 = 0 by omega]
        rfl
      · simp only [List.length_cons]
        rw [rankLoop_length_chain (by omega)]
        omega
    · have hik' : i + 1 < k := by omega
      have hlen' : k - (i + 1) ≤ rest.length := by
        simp only [List.length_cons] at hlen
        omega
      obtain ⟨e', rest', hdrop, hlen2⟩ := ih hik' hlen'
      refine ⟨e', rest', ?_, ?_⟩
      · rw [show k - i - 1 = (k - (i + 1) - 1) + 1 by omega, List.drop_succ_cons]
        exact hdrop
      · simp only [List.length_cons]
        rw [hlen2]
        omega

theorem memOfGetElem {α : Type} {l : List α} {n : ℕ} {a : α}
    (h : l[n]? = some a) : a ∈ l := by
  obtain ⟨hn, rfl⟩ := List.getElem?_eq_some.1 h
  exact List.getElem_mem hn

theorem chainLen_get {p : ℤ} {t : List PlayLog} {j : ℕ} (h : j < chainLen p t) :
    ∃ a, t[j]? = some a ∧ roundQ a.score = p := by
  induction t generalizing p j with
  | nil => simp [chainLen] at h
  | cons e rest ih =>
    rw [chainLen] at h
    by_cases hp : p = roundQ e.score
    · rw [if_pos hp] at h
      cases j with
      | zero => exact ⟨e, by simp, hp.symm⟩
      | succ j =>
        obtain ⟨a, h1, h2⟩ := ih (p := roundQ e.score) (j := j) (by omega)
        exact ⟨a, by simpa using h1, by rw [h2, ← hp]⟩
    · rw [if_neg hp] at h
      omega

theorem lt_chainLen {p : ℤ} {t : List PlayLog} {j : ℕ} {a : PlayLog}
    (hub : ∀ x ∈ t, roundQ x.score ≤ p)
    (hpw : t.Pairwise (fun x y => y.score ≤ x.score))
    (hga : t[j]? = some a) (hpa : roundQ a.score = p) : j < chainLen p t := by
  induction t generalizing j with
  | nil => simp at hga
  | cons e rest ih =>
    cases j with
    | zero =>
      simp only [List.getElem?_cons_zero, Option.some_inj] at hga
      subst hga
      rw [chainLen, if_pos hpa.symm]
      omega
    | succ j =>
      have hga' : rest[j]? = some a := by simpa using hga
      have ham : a ∈ rest := memOfGetElem hga'
      have hge : p = roundQ e.score := by
        have h1 : a.score ≤ e.score := (List.pairwise_cons.1 hpw).1 a ham
        have h2 : roundQ a.score ≤ roundQ e.score := roundQ_mono h1
        have h3 : roundQ e.score ≤ p := hub e (List.mem_cons_self e rest)
        omega
      rw [chainLen, if_pos hge, ← hge]
      have hj := ih (fun x hx => hub x (List.mem_cons_of_mem e hx))
        (List.pairwise_cons.1 hpw).2 hga'
      omega

theorem rankLoop_head {p : ℤ} {r i k : Nat} {t : List PlayLog}
    {a : ℕ × PlayLog} (h : (rankLoop p r i k t)[0]? = some a) :
    a.1 = (if p = roundQ a.2.score then r else i + 1) ∧ t[0]? = some a.2 := by
  cases t with
  | nil => simp [rankLoop] at h
  | cons e rest =>
    rw [rankLoop_cons] at h
    by_cases hbr : k ≤ i ∧ p ≠ roundQ e.score
    · rw [if_pos hbr] at h
      simp at h
    · rw [if_neg hbr] at h
      simp only [List.getElem?_cons_zero, Option.some_inj] at h
      subst h
      exact ⟨rfl, by simp⟩

theorem rankLoop_consec {t : List PlayLog} :
    ∀ {p : ℤ} {r i k j : Nat} {a b : ℕ × PlayLog},
    (rankLoop p r i k t)[j]? = some a →
    (rankLoop p r i k t)[j + 1]? = some b →
    b.1 = if roundQ b.2.score = roundQ a.2.score then a.1 else i + j + 2 := by
  induction t with
  | nil => intro p r i k j a b ha hb; simp [rankLoop] at ha
  | cons e rest ih =>
    intro p r i k j a b ha hb
    rw [rankLoop_cons] at ha hb
    by_cases hbr : k ≤ i ∧ p ≠ roundQ e.score
    · rw [if_pos hbr] at ha
      simp at ha
    · rw [if_neg hbr] at ha hb
      cases j with
      | zero =>
        simp only [List.getElem?_cons_zero, Option.some_inj] at ha
        have hb' := rankLoop_head (p := roundQ e.score) (by simpa using hb)
        subst ha
        rw [hb'.1]
        by_cases hc : roundQ b.2.score = roundQ e.score
        · rw [if_pos hc.symm, if_pos hc]
        · rw [if_neg (fun hh => hc hh.symm), if_neg hc]
      | succ j =>
        have ha' := ih (by simpa using ha) (by simpa using hb)
        rw [ha']
        by_cases hc : roundQ b.2.score = roundQ a.2.score
        · rw [if_pos hc, if_pos hc]
        · rw [if_neg hc, if_neg hc]
          omega

theorem rankLoop_rank_le {t : List PlayLog} :
    ∀ {p : ℤ} {r i k j : Nat} {a : ℕ × PlayLog}, r ≤ i →
    (rankLoop p r i k t)[j]? = some a → a.1 ≤ i + j + 1 := by
  induction t with
  | nil => intro p r i k j a hr h; simp [rankLoop] at h
  | cons e rest ih =>
    intro p r i k j a hr h
    rw [rankLoop_cons] at h
    by_cases hbr : k ≤ i ∧ p ≠ roundQ e.score
    · rw [if_pos hbr] at h
      simp at h
    · rw [if_neg hbr] at h
      cases j with
      | zero =>
        simp only [List.getElem?_cons_zero, Option.some_inj] at h
        subst h
        show (if p = roundQ e.score then r else i + 1) ≤ i + 0 + 1
        split_ifs <;> omega
      | succ j =>
        have := ih (show (if p = roundQ e.score then r else i + 1) ≤ i + 1
          by split_ifs <;> omega) (by simpa using h)
        omega

/-- C4: with `topK ≥ 1`, a record at 0-based position `i` of the
descending-sorted sequence is included in the `top_rankings` result iff
`i < topK` or its rounded score equals the rounded score of the record at
position `topK - 1`; iteration stops at the first record whose rounded score
differs from the previous one once the position is at least `topK`. -/
theorem C4_topRankings_inclusion (l : List PlayLog) (k i : ℕ) (hk : 1 ≤ k)
    (hi : i < (sortD l).length) :
    i < (resList l k).length ↔
      (i < k ∨ ∃ a b, (sortD l)[i]? = some a ∧ (sortD l)[k - 1]? = some b ∧
        roundQ a.score = roundQ b.score) := by
  by_cases hkl : k ≤ (sortD l).length
  · obtain ⟨e, rest, hdrop, hlen⟩ :=
      rankLoop_length_split (t := sortD l) (p := fMaxZ) (r := 0) (i := 0) (k := k)
        (by omega) (by omega)
    rw [Nat.sub_zero] at hdrop hlen
    have hres : (resList l k).length = k + chainLen (roundQ e.score) rest := hlen
    have hke : (sortD l)[k - 1]? = some e := by
      have h0 : ((sortD l).drop (k - 1))[0]? = some e := by
        rw [hdrop]
        simp
      rw [List.getElem?_drop] at h0
      simpa using h0
    have hrest : (sortD l).drop k = rest := by
      have h1 : ((sortD l).drop (k - 1)).drop 1 = rest := by
        rw [hdrop]
        rfl
      rw [List.drop_drop] at h1
      rwa [show k - 1 + 1 = k by omega] at h1
    have hpw : (e :: rest).Pairwise (fun x y => y.score ≤ x.score) := by
      rw [← hdrop]
      exact (sortD_pairwise l).sublist (List.drop_sublist _ _)
    constructor
    · intro hlt
      by_cases hik : i < k
      · exact Or.inl hik
      · refine Or.inr ?_
        rw [hres] at hlt
        obtain ⟨a, hga, hpa⟩ :=
          chainLen_get (p := roundQ e.score) (t := rest) (j := i - k) (by omega)
        refine ⟨a, e, ?_, hke, by rw [hpa]⟩
        rw [← hrest, List.getElem?_drop] at hga
        rwa [show k + (i - k) = i by omega] at hga
    · intro hor
      rcases hor with hik | ⟨a, b, hga, hgb, hab⟩
      · rw [hres]
        omega
      · by_cases hik : i < k
        · rw [hres]
          omega
        · have hb : e = b := Option.some_inj.1 (hke.symm.trans hgb)
          subst hb
          have hga' : rest[i - k]? = some a := by
            rw [← hrest, List.getElem?_drop, show k + (i - k) = i by omega]
            exact hga
          have hub : ∀ x ∈ rest, roundQ x.score ≤ roundQ e.score :=
            fun x hx => roundQ_mono ((List.pairwise_cons.1 hpw).1 x hx)
          have hchain := lt_chainLen hub (List.pairwise_cons.1 hpw).2 hga' hab
          rw [hres]
          omega
  · rw [resList, rankLoop_length_of_le (by omega)]
    constructor
    · intro _
      exact Or.inl (by omega)
    · intro _
      exact hi

theorem resList_getElem_sortD {l : List PlayLog} {k j : ℕ} {a : ℕ × PlayLog}
    (ha : (resList l k)[j]? = some a) : (sortD l)[j]? = some a.2 := by
  obtain ⟨hj, -⟩ := List.getElem?_eq_some.1 ha
  have hm : ((resList l k).map Prod.snd)[j]? = some a.2 := by
    rw [List.getElem?_map, ha]
    rfl
  rw [show (resList l k).map Prod.snd = (sortD l).take (resList l k).length from
    rankLoop_snd fMaxZ 0 0 k (sortD l)] at hm
  rw [List.getElem?_take_of_lt hj] at hm
  exact hm

/-- C5 (amended): with `topK ≥ 1` on a non-empty input, the first entry of
the `top_rankings` result carries rank 1 unless its score rounds to exactly
`f64::MAX`, in which case it ties the `prev_score` sentinel and receives
`prev_rank`'s initial value 0; the records of the result are the initial
records of the descending-sorted sequence in order; each subsequent entry
has the same rank as the previous one when their rounded scores agree and
otherwise rank equal to its 1-based position in the sorted sequence; and the
ranks are non-decreasing. -/
theorem C5_topRankings_ranks (l : List PlayLog) (k : ℕ) (hk : 1 ≤ k)
    (hl : l ≠ []) :
    (∃ a, (resList l k)[0]? = some a ∧
      a.1 = if fMaxZ = roundQ a.2.score then 0 else 1) ∧
    (resList l k).map Prod.snd = (sortD l).take (resList l k).length ∧
    (∀ j a b, (resList l k)[j]? = some a → (resList l k)[j + 1]? = some b →
      b.1 = if roundQ b.2.score = roundQ a.2.score then a.1 else j + 2) ∧
    (∀ j a b, (resList l k)[j]? = some a → (resList l k)[j + 1]? = some b →
      a.1 ≤ b.1) := by
  refine ⟨?_, rankLoop_snd fMaxZ 0 0 k (sortD l), ?_, ?_⟩
  · have hlen : 0 < (sortD l).length := by
      rw [length_sortD]
      exact List.length_pos.2 hl
    cases hsl : sortD l with
    | nil =>
      rw [hsl] at hlen
      simp at hlen
    | cons e t =>
      have h : resList l k =
          ((if fMaxZ = roundQ e.score then 0 else 1), e) ::
            rankLoop (roundQ e.score)
              (if fMaxZ = roundQ e.score then 0 else 1) 1 k t := by
        rw [resList, hsl, rankLoop_cons, if_neg (fun hc => absurd hc.1 (by omega))]
      refine ⟨((if fMaxZ = roundQ e.score then 0 else 1), e), ?_, rfl⟩
      rw [h]
      simp
  · intro j a b ha hb
    have h := rankLoop_consec ha hb
    simpa using h
  · intro j a b ha hb
    have hc := rankLoop_consec ha hb
    have hle := rankLoop_rank_le (le_refl 0) ha
    by_cases he : roundQ b.2.score = roundQ a.2.score
    · rw [hc, if_pos he]
    · rw [hc, if_neg he]
      omega

/-- C7 (amended): `top_rankings` with `topK = 0` returns `Ok` of the empty
list on every input none of whose scores rounds to exactly `f64::MAX` (a
record rounding to `f64::MAX` ties the `prev_score` sentinel, defeats the
break, and is returned with rank 0 — see the counterexample); on the empty
input it returns `Ok` of the empty list for every `topK`; and with
`topK = 0` the call always succeeds with an `Ok` value, never an error. -/
theorem C7_topRankings_zero_empty (l : List PlayLog) (k : ℕ) :
    ((∀ r ∈ l, roundQ r.score ≠ fMaxZ) → topRankings l 0 = Except.ok []) ∧
    topRankings [] k = Except.ok [] ∧
    ∃ res, topRankings l 0 = Except.ok res := by
  refine ⟨?_, rfl, ⟨resList l 0, rfl⟩⟩
  intro hs
  have h : resList l 0 = [] := by
    rw [resList]
    cases hsl : sortD l with
    | nil => rfl
    | cons e t =>
      have he : e ∈ l := mem_sortD.1 (by rw [hsl]; exact List.mem_cons_self e t)
      rw [rankLoop_cons, if_pos ⟨Nat.zero_le 0, fun hc => hs e he hc.symm⟩]
  rw [topRankings, h]

/-- C1 (amended): the `top_rankings` result is ordered by descending raw
score (line 101 sorts by the raw `f64` comparison, not the rounded value),
while two consecutive records whose scores round to the same integer are
still assigned the same rank. -/
theorem C1_amended_raw_sort_rounded_ties (l : List PlayLog) (k : ℕ) :
    ∀ j a b, (resList l k)[j]? = some a → (resList l k)[j + 1]? = some b →
      b.2.score ≤ a.2.score ∧
      (roundQ b.2.score = roundQ a.2.score → b.1 = a.1) := by
  intro j a b ha hb
  constructor
  · have hja := resList_getElem_sortD ha
    have hjb := resList_getElem_sortD hb
    obtain ⟨ha', hea⟩ := List.getElem?_eq_some.1 hja
    obtain ⟨hb', heb⟩ := List.getElem?_eq_some.1 hjb
    have := List.pairwise_iff_getElem.1 (sortD_pairwise l) j (j + 1) ha' hb'
      (by omega)
    rw [hea, heb] at this
    exact this
  · intro he
    have h := rankLoop_consec ha hb
    rw [h, if_pos he]

/-- C1 (counterexample): two records with distinct raw scores `3/5` and
`7/5` that round to the same integer `1` are reordered by their raw scores
(the later, larger raw score moves first), so `top_rankings` does order
records by raw floating-point score, not only by the rounded value. -/
theorem C1_counterexample :
    resList [⟨"a", mkRat 3 5, 0⟩, ⟨"b", mkRat 7 5, 0⟩] 2 =
      [(1, ⟨"b", mkRat 7 5, 0⟩), (1, ⟨"a", mkRat 3 5, 0⟩)] ∧
    roundQ (mkRat 3 5) = roundQ (mkRat 7 5) ∧
    (mkRat 3 5 : ℚ) ≠ mkRat 7 5 ∧
    resList [⟨"a", mkRat 3 5, 0⟩, ⟨"b", mkRat 7 5, 0⟩] 2 ≠
      [(1, ⟨"a", mkRat 3 5, 0⟩), (1, ⟨"b", mkRat 7 5, 0⟩)] := by
  refine ⟨by decide, by decide, by decide, by decide⟩

/-- C2 (amended): among records with equal raw score the `top_rankings`
result preserves the input order (the sort of line 101 is stable with
respect to the raw-score comparator); records with equal rounded but
different raw scores are instead ordered by descending raw score. -/
theorem C2_amended_raw_stability (l : List PlayLog) (k : ℕ) (s : ℚ) :
    List.Sublist (((resList l k).map Prod.snd).filter (fun r => r.score = s))
      (l.filter (fun r => r.score = s)) := by
  have h1 : List.Sublist ((resList l k).map Prod.snd) (sortD l) := by
    rw [show (resList l k).map Prod.snd = (sortD l).take (resList l k).length from
      rankLoop_snd fMaxZ 0 0 k (sortD l)]
    exact List.take_sublist _ _
  have h2 := h1.filter (fun r => decide (r.score = s))
  rw [filter_sortD] at h2
  exact h2

/-- C2 (counterexample): records `c` (score `8/5`) and `d` (score `12/5`)
round to the same integer `2`; `c` precedes `d` in the input but follows it
in the `top_rankings` result, so input order is not preserved among records
with equal rounded score. -/
theorem C2_counterexample :
    resList [⟨"c", mkRat 8 5, 0⟩, ⟨"d", mkRat 12 5, 0⟩] 2 =
      [(1, ⟨"d", mkRat 12 5, 0⟩), (1, ⟨"c", mkRat 8 5, 0⟩)] ∧
    roundQ (mkRat 8 5) = roundQ (mkRat 12 5) := by
  refine ⟨by decide, by decide⟩

/-- Witness for C4 at the spec's tie example: position 1 (record "b",
score 1000) is included with `topK = 1` because it rounds like position 0. -/
theorem C4_witness :
    1 < (resList [⟨"a", 1000, 0⟩, ⟨"b", 1000, 0⟩, ⟨"c", 500, 0⟩] 1).length ↔
      (1 < 1 ∨ ∃ a b,
        (sortD [⟨"a", 1000, 0⟩, ⟨"b", 1000, 0⟩, ⟨"c", 500, 0⟩])[1]? = some a ∧
        (sortD [⟨"a", 1000, 0⟩, ⟨"b", 1000, 0⟩, ⟨"c", 500, 0⟩])[1 - 1]? = some b ∧
        roundQ a.score = roundQ b.score) :=
  C4_topRankings_inclusion [⟨"a", 1000, 0⟩, ⟨"b", 1000, 0⟩, ⟨"c", 500, 0⟩] 1 1
    (by decide) (by decide)

/-- Witness for the amended C5 on a concrete two-record input with
`topK = 2`. -/
theorem C5_witness :
    (∃ a, (resList [⟨"a", 10, 0⟩, ⟨"b", 20, 0⟩] 2)[0]? = some a ∧
      a.1 = if fMaxZ = roundQ a.2.score then 0 else 1) ∧
    (resList [⟨"a", 10, 0⟩, ⟨"b", 20, 0⟩] 2).map Prod.snd =
      (sortD [⟨"a", 10, 0⟩, ⟨"b", 20, 0⟩]).take
        (resList [⟨"a", 10, 0⟩, ⟨"b", 20, 0⟩] 2).length ∧
    (∀ j a b, (resList [⟨"a", 10, 0⟩, ⟨"b", 20, 0⟩] 2)[j]? = some a →
      (resList [⟨"a", 10, 0⟩, ⟨"b", 20, 0⟩] 2)[j + 1]? = some b →
      b.1 = if roundQ b.2.score = roundQ a.2.score then a.1 else j + 2) ∧
    (∀ j a b, (resList [⟨"a", 10, 0⟩, ⟨"b", 20, 0⟩] 2)[j]? = some a →
      (resList [⟨"a", 10, 0⟩, ⟨"b", 20, 0⟩] 2)[j + 1]? = some b →
      a.1 ≤ b.1) :=
  C5_topRankings_ranks [⟨"a", 10, 0⟩, ⟨"b", 20, 0⟩] 2 (by decide) (by decide)

/-- Witness for the amended C1 at the counterexample records: consecutive
entries are ordered by raw score and share rank 1 because they round alike. -/
theorem C1_amended_witness :
    (⟨"a", mkRat 3 5, 0⟩ : PlayLog).score ≤ (⟨"b", mkRat 7 5, 0⟩ : PlayLog).score ∧
    (roundQ (⟨"a", mkRat 3 5, 0⟩ : PlayLog).score =
        roundQ (⟨"b", mkRat 7 5, 0⟩ : PlayLog).score → (1 : ℕ) = 1) :=
  C1_amended_raw_sort_rounded_ties [⟨"a", mkRat 3 5, 0⟩, ⟨"b", mkRat 7 5, 0⟩] 2 0
    (1, ⟨"b", mkRat 7 5, 0⟩) (1, ⟨"a", mkRat 3 5, 0⟩) (by decide) (by decide)

/-- C5 (counterexample): a non-empty input whose single record scores
exactly `f64::MAX` (the value `fMaxZ`, which rounds to itself): on the first
iteration `prev_score == score` already holds against the sentinel, so with
`topK = 1` the first record of the sorted sequence is assigned
`prev_rank = 0`, not rank 1 as the claim states. -/
theorem C5_counterexample :
    resList [⟨"m", mkRat fMaxZ 1, 0⟩] 1 = [(0, ⟨"m", mkRat fMaxZ 1, 0⟩)] ∧
    (0 : ℕ) ≠ 1 :=
  ⟨by decide, by decide⟩

/-- C7 (counterexample): with `topK = 0`, a record scoring exactly
`f64::MAX` ties the `prev_score` sentinel, so the break condition
`i >= top_rank && prev_score != score` is false and `top_rankings` returns a
non-empty `Ok` result (with rank 0), not the empty result the claim states
for every input. -/
theorem C7_counterexample :
    topRankings [⟨"m", mkRat fMaxZ 1, 0⟩] 0 =
      Except.ok [(0, ⟨"m", mkRat fMaxZ 1, 0⟩)] ∧
    resList [⟨"m", mkRat fMaxZ 1, 0⟩] 0 ≠ [] :=
  ⟨congrArg Except.ok (by decide), by decide⟩

/-- Witness for the amended C7: a concrete one-record input whose score does
not round to the sentinel yields the empty `Ok` result at `topK = 0`. -/
theorem C7_witness :
    topRankings [⟨"a", 5, 0⟩] 0 = Except.ok [] :=
  (C7_topRankings_zero_empty [⟨"a", 5, 0⟩] 1).1 (by decide)

theorem sortF_cons (e : PlayLogF) (t : List PlayLogF) :
    sortF (e :: t) = (sortF t) >>= insertF e := rfl

theorem insertF_total {a : PlayLogF} {l : List PlayLogF} (ha : a.score ≠ none)
    (hl : ∀ r ∈ l, r.score ≠ none) :
    ∃ l', insertF a l = some l' ∧ ∀ r ∈ l', r.score ≠ none := by
  induction l with
  | nil =>
    refine ⟨[a], rfl, ?_⟩
    intro r hr
    rw [List.mem_singleton.1 hr]
    exact ha
  | cons b t ih =>
    have hb : b.score ≠ none := hl b (List.mem_cons_self b t)
    obtain ⟨x, hx⟩ := Option.ne_none_iff_exists'.1 hb
    obtain ⟨y, hy⟩ := Option.ne_none_iff_exists'.1 ha
    have hcons : ∀ r ∈ a :: b :: t, r.score ≠ none := by
      intro r hr
      rcases List.mem_cons.1 hr with rfl | hr'
      · exact ha
      · exact hl r hr'
    by_cases h1 : x < y
    · refine ⟨a :: b :: t, ?_, hcons⟩
      simp [insertF, pcmpF, hx, hy, h1]
    · by_cases h2 : y < x
      · obtain ⟨l', hl', hm⟩ := ih (fun r hr => hl r (List.mem_cons_of_mem _ hr))
        refine ⟨b :: l', ?_, ?_⟩
        · simp [insertF, pcmpF, hx, hy, h1, h2, hl']
        · intro r hr
          rcases List.mem_cons.1 hr with rfl | hr'
          · exact hb
          · exact hm r hr'
      · refine ⟨a :: b :: t, ?_, hcons⟩
        simp [insertF, pcmpF, hx, hy, h1, h2]

theorem sortF_total {l : List PlayLogF} (hl : ∀ r ∈ l, r.score ≠ none) :
    ∃ s, sortF l = some s ∧ ∀ r ∈ s, r.score ≠ none := by
  induction l with
  | nil => exact ⟨[], rfl, by simp⟩
  | cons e t ih =>
    obtain ⟨s, hs, hm⟩ := ih (fun r hr => hl r (List.mem_cons_of_mem _ hr))
    obtain ⟨s', hs', hm'⟩ := insertF_total (hl e (List.mem_cons_self e t)) hm
    refine ⟨s', ?_, hm'⟩
    rw [sortF_cons, hs]
    simpa using hs'

/-- C6 (amended): `top_rankings` never returns an `Err` value — its body
only ever builds `Ok` — and on every input whose scores are all finite it
returns `Ok` with a result; a NaN score instead makes the sort comparator's
`unwrap` panic (see the counterexample), rather than producing an error. -/
theorem C6_amended_ok_or_panic (l : List PlayLogF) (k : ℕ) :
    (∀ e, topRankingsF l k ≠ some (Except.error e)) ∧
    ((∀ r ∈ l, r.score ≠ none) →
      ∃ res, topRankingsF l k = some (Except.ok res)) := by
  constructor
  · intro e h
    rw [topRankingsF] at h
    cases hs : sortF l with
    | none =>
      rw [hs] at h
      simp at h
    | some s =>
      rw [hs] at h
      simp at h
  · intro hfin
    obtain ⟨s, hs, -⟩ := sortF_total hfin
    refine ⟨rankLoopF (some fMaxZ) 0 0 k s, ?_⟩
    rw [topRankingsF, hs]
    rfl

/-- C6 (counterexample): on an input containing a NaN score (`none`),
`top_rankings` panics inside the sort comparator (`partial_cmp(..).unwrap()`),
modelled by the outer `none`; it does not return an error value to the
caller as the claim states. -/
theorem C6_counterexample :
    topRankingsF [⟨"n", none, 0⟩, ⟨"z", some 0, 0⟩] 2 = none := rfl

/-- Witness for the amended C6: a singleton finite-score input yields `Ok`. -/
theorem C6_witness :
    ∃ res, topRankingsF [⟨"a", some 1, 0⟩] 1 = some (Except.ok res) :=
  (C6_amended_ok_or_panic [⟨"a", some 1, 0⟩] 1).2 (by decide)

theorem dedupFirst_nil : dedupFirst [] = [] := by
  rw [dedupFirst]

theorem dedupFirst_cons (x : String) (xs : List String) :
    dedupFirst (x :: xs) = x :: dedupFirst (xs.filter (fun y => y ≠ x)) := by
  rw [dedupFirst]

theorem mem_dedupFirst {a : String} : ∀ {l : List String},
    a ∈ dedupFirst l ↔ a ∈ l := by
  intro l
  induction l using dedupFirst.induct with
  | case1 => rw [dedupFirst_nil]
  | case2 x xs ih =>
    rw [dedupFirst_cons]
    simp only [List.mem_cons, ih, List.mem_filter]
    constructor
    · rintro (rfl | ⟨ha, -⟩)
      · exact Or.inl rfl
      · exact Or.inr ha
    · rintro (rfl | ha)
      · exact Or.inl rfl
      · by_cases hax : a = x
        · exact Or.inl hax
        · exact Or.inr ⟨ha, by simp [hax]⟩

theorem dedupFirst_nodup : ∀ l : List String, (dedupFirst l).Nodup := by
  intro l
  induction l using dedupFirst.induct with
  | case1 => simp [dedupFirst]
  | case2 x xs ih =>
    rw [dedupFirst_cons]
    refine List.nodup_cons.2 ⟨?_, ih⟩
    intro hx
    have h := List.mem_filter.1 (mem_dedupFirst.1 hx)
    simp at h

theorem dedupFirst_append_not_mem (x : String) : ∀ {l : List String}, x ∉ l →
    dedupFirst (l ++ [x]) = dedupFirst l ++ [x] := by
  intro l
  induction l using dedupFirst.induct with
  | case1 =>
    intro _
    rw [List.nil_append, dedupFirst_cons, dedupFirst_nil]
    simp [dedupFirst_nil]
  | case2 y ys ih =>
    intro hx
    have hxy : ¬x = y := fun h => hx (h ▸ List.mem_cons_self y ys)
    rw [List.cons_append, dedupFirst_cons, dedupFirst_cons, List.filter_append]
    have hone : [x].filter (fun y' => y' ≠ y) = [x] := by simp [hxy]
    rw [hone, ih (fun hm => hx (List.mem_cons_of_mem y (List.mem_filter.1 hm).1))]
    rfl

theorem dedupFirst_append_mem (x : String) : ∀ {l : List String}, x ∈ l →
    dedupFirst (l ++ [x]) = dedupFirst l := by
  intro l
  induction l using dedupFirst.induct with
  | case1 => intro h; simp at h
  | case2 y ys ih =>
    intro hx
    by_cases hxy : x = y
    · rw [List.cons_append, dedupFirst_cons, dedupFirst_cons, List.filter_append]
      have hone : [x].filter (fun y' => y' ≠ y) = [] := by simp [hxy]
      rw [hone, List.append_nil]
    · have hxys : x ∈ ys := by
        rcases List.mem_cons.1 hx with h | h
        · exact absurd h hxy
        · exact h
      rw [List.cons_append, dedupFirst_cons, dedupFirst_cons, List.filter_append]
      have hone : [x].filter (fun y' => y' ≠ y) = [x] := by simp [hxy]
      rw [hone, ih (List.mem_filter.2 ⟨hxys, by simp [hxy]⟩)]

theorem occs_append_one (seen : List PlayLog) (e : PlayLog) (pid : String) :
    occs (seen ++ [e]) pid =
      occs seen pid ++ if e.player_id = pid then [e] else [] := by
  rw [occs, occs, List.filter_append]
  congr 1
  by_cases h : e.player_id = pid
  · simp [h]
  · simp [h]

theorem occs_eq_nil_iff {seen : List PlayLog} {pid : String} :
    occs seen pid = [] ↔ pid ∉ seen.map (fun r => r.player_id) := by
  rw [occs, List.filter_eq_nil_iff]
  simp only [List.mem_map, decide_eq_true_eq]
  constructor
  · rintro h ⟨r, hr, rfl⟩
    exact h r hr rfl
  · intro h r hr hrp
    exact h ⟨r, hr, hrp⟩

theorem find?_append_of_some {α : Type} {p : α → Bool} {l₁ : List α} {x : α}
    (l₂ : List α) (h : l₁.find? p = some x) : (l₁ ++ l₂).find? p = some x := by
  induction l₁ with
  | nil => simp [List.find?] at h
  | cons a t ih =>
    rw [List.cons_append]
    by_cases ha : p a
    · rw [List.find?_cons_of_pos _ ha] at h ⊢
      exact h
    · rw [List.find?_cons_of_neg _ ha] at h ⊢
      exact ih h

theorem find?_append_of_none {α : Type} {p : α → Bool} {l₁ : List α}
    (l₂ : List α) (h : l₁.find? p = none) : (l₁ ++ l₂).find? p = l₂.find? p := by
  induction l₁ with
  | nil => rfl
  | cons a t ih =>
    rw [List.cons_append]
    by_cases ha : p a
    · rw [List.find?_cons_of_pos _ ha] at h
      simp at h
    · rw [List.find?_cons_of_neg _ ha] at h ⊢
      exact ih h

theorem meanUpdate_eq_none {c : String → Nat} {e : PlayLog} :
    ∀ {res : List PlayLog}, meanUpdate c e res = none ↔
      ∀ r ∈ res, ¬r.player_id = e.player_id := by
  intro res
  induction res with
  | nil => simp [meanUpdate]
  | cons r rs ih =>
    simp only [meanUpdate]
    by_cases h : r.player_id = e.player_id
    · simp [h]
    · simp only [if_neg h, Option.map_eq_none', ih, List.mem_cons]
      constructor
      · intro ha x hx
        rcases hx with rfl | hx'
        · exact h
        · exact ha x hx'
      · intro ha x hx
        exact ha x (Or.inr hx)

theorem meanUpdate_eq_some {c : String → Nat} {e : PlayLog} :
    ∀ {res res' : List PlayLog}, meanUpdate c e res = some res' →
    ∃ res₁ r res₂,
      res = res₁ ++ r :: res₂ ∧
      (∀ x ∈ res₁, ¬x.player_id = e.player_id) ∧
      r.player_id = e.player_id ∧
      res' = res₁ ++
        { r with score := r.score / ((c r.player_id : ℚ) + 1) * (c r.player_id) +
            e.score / ((c r.player_id : ℚ) + 1) } :: res₂ := by
  intro res
  induction res with
  | nil => intro res' h; simp [meanUpdate] at h
  | cons r rs ih =>
    intro res' h
    simp only [meanUpdate] at h
    by_cases hid : r.player_id = e.player_id
    · rw [if_pos hid] at h
      refine ⟨[], r, rs, by simp, by simp, hid, ?_⟩
      rw [List.nil_append]
      exact (Option.some_inj.1 h).symm
    · rw [if_neg hid] at h
      obtain ⟨t', ht', hres'⟩ := Option.map_eq_some'.1 h
      obtain ⟨res₁, rr, res₂, h1, h2, h3, h4⟩ := ih ht'
      refine ⟨r :: res₁, rr, res₂, by rw [List.cons_append, h1], ?_, h3, ?_⟩
      · intro x hx
        rcases List.mem_cons.1 hx with rfl | hx'
        · exact hid
        · exact h2 x hx'
      · rw [← hres', h4, List.cons_append]

theorem meanStep_inv {seen : List PlayLog} {st : List PlayLog × (String → Nat)}
    (h : MeanInv seen st) (e : PlayLog) :
    MeanInv (seen ++ [e]) (meanStep st e) := by
  obtain ⟨h1, h2, h3, h4⟩ := h
  cases hupd : meanUpdate st.2 e st.1 with
  | none =>
    have hnomem : ∀ r ∈ st.1, ¬r.player_id = e.player_id :=
      meanUpdate_eq_none.1 hupd
    have hnid : e.player_id ∉ seen.map (fun r => r.player_id) := by
      intro hm
      have hmem : e.player_id ∈ st.1.map (fun r => r.player_id) := by
        rw [h2]
        exact mem_dedupFirst.2 hm
      obtain ⟨r, hr, hrid⟩ := List.mem_map.1 hmem
      exact hnomem r hr hrid
    have hocc0 : occs seen e.player_id = [] := occs_eq_nil_iff.2 hnid
    simp only [meanStep, hupd]
    refine ⟨?_, ?_, ?_, ?_⟩
    · intro pid
      show (if pid = e.player_id then 1 else st.2 pid) = _
      rw [occs_append_one]
      by_cases hp : pid = e.player_id
      · rw [if_pos hp, hp, hocc0]
        simp
      · rw [if_neg hp, if_neg (fun hh => hp hh.symm)]
        simp [h1 pid]
    · show (st.1 ++ [e]).map _ = _
      rw [List.map_append, List.map_append, h2]
      simp only [List.map_cons, List.map_nil]
      rw [dedupFirst_append_not_mem _ hnid]
    · intro r hr
      rcases List.mem_append.1 hr with hr' | hr'
      · have hrid : ¬r.player_id = e.player_id := hnomem r hr'
        rw [occs_append_one, if_neg (fun hh => hrid hh.symm), List.append_nil]
        exact h3 r hr'
      · rw [List.mem_singleton.1 hr']
        rw [occs_append_one, if_pos rfl, hocc0]
        simp
    · intro r hr
      rcases List.mem_append.1 hr with hr' | hr'
      · obtain ⟨r0, hf, hprop⟩ := h4 r hr'
        exact ⟨r0, find?_append_of_some _ hf, hprop⟩
      · rw [List.mem_singleton.1 hr']
        have hfnone : seen.find? (fun x => x.player_id = e.player_id) = none := by
          rw [List.find?_eq_none]
          intro x hx hpx
          simp only [decide_eq_true_eq] at hpx
          exact hnid (List.mem_map.2 ⟨x, hx, hpx⟩)
        refine ⟨e, ?_, rfl, rfl⟩
        rw [find?_append_of_none _ hfnone]
        simp [List.find?]
  | some res' =>
    obtain ⟨res₁, r, res₂, hres, hres₁, hrid, hres'⟩ := meanUpdate_eq_some hupd
    have hrmem : r ∈ st.1 := by
      rw [hres]
      exact List.mem_append.2 (Or.inr (List.mem_cons_self r res₂))
    have hmem : e.player_id ∈ seen.map (fun x => x.player_id) := by
      have : r.player_id ∈ st.1.map (fun x => x.player_id) :=
        List.mem_map.2 ⟨r, hrmem, rfl⟩
      rw [h2] at this
      rw [← hrid]
      exact mem_dedupFirst.1 this
    have hnodup : (st.1.map (fun x => x.player_id)).Nodup := by
      rw [h2]
      exact dedupFirst_nodup _
    have hres₂ : ∀ x ∈ res₂, ¬x.player_id = e.player_id := by
      intro x hx hxe
      have hmap : (res₁.map (fun y => y.player_id) ++
          r.player_id :: res₂.map (fun y => y.player_id)).Nodup := by
        have := hnodup
        rw [hres, List.map_append, List.map_cons] at this
        exact this
      have hnd2 : (r.player_id :: res₂.map (fun y => y.player_id)).Nodup :=
        hmap.of_append_right
      have : r.player_id ∈ res₂.map (fun y => y.player_id) := by
        rw [hrid, ← hxe]
        exact List.mem_map.2 ⟨x, hx, rfl⟩
      exact (List.nodup_cons.1 hnd2).1 this
    have hocc_pos : occs seen e.player_id ≠ [] := by
      intro hc
      exact (occs_eq_nil_iff.1 hc) hmem
    have hn1 : 1 ≤ (occs seen e.player_id).length := by
      rcases Nat.eq_zero_or_pos (occs seen e.player_id).length with hz | hp
      · exact absurd (List.length_eq_zero.1 hz) hocc_pos
      · exact hp
    simp only [meanStep, hupd]
    refine ⟨?_, ?_, ?_, ?_⟩
    · intro pid
      show (if pid = e.player_id then st.2 pid + 1 else st.2 pid) = _
      rw [occs_append_one]
      by_cases hp : pid = e.player_id
      · rw [if_pos hp, hp]
        simp [h1 e.player_id]
      · rw [if_neg hp, if_neg (fun hh => hp hh.symm)]
        simp [h1 pid]
    · show res'.map _ = _
      have hids : res'.map (fun x => x.player_id) = st.1.map (fun x => x.player_id) := by
        rw [hres', hres]
        simp [List.map_append]
      rw [hids, h2, List.map_append]
      simp only [List.map_cons, List.map_nil]
      rw [dedupFirst_append_mem _ hmem]
    · intro x hx
      rw [hres'] at hx
      rcases List.mem_append.1 hx with hx1 | hx2
      · have hxe : ¬x.player_id = e.player_id := hres₁ x hx1
        rw [occs_append_one, if_neg (fun hh => hxe hh.symm), List.append_nil]
        exact h3 x (by rw [hres]; exact List.mem_append.2 (Or.inl hx1))
      · rcases List.mem_cons.1 hx2 with rfl | hx3
        · show r.score / ((st.2 r.player_id : ℚ) + 1) * (st.2 r.player_id) +
            e.score / ((st.2 r.player_id : ℚ) + 1) = _
          have hkr : st.2 r.player_id = (occs seen e.player_id).length := by
            rw [h1 r.player_id, hrid]
          have hrs : r.score =
              ((occs seen r.player_id).map (fun y => y.score)).sum /
                ((occs seen r.player_id).length : ℚ) := h3 r hrmem
          rw [hkr, hrs, hrid]
          show _ = ((occs (seen ++ [e]) e.player_id).map (fun x => x.score)).sum /
            ((occs (seen ++ [e]) e.player_id).length : ℚ)
          rw [occs_append_one, if_pos rfl]
          set S := ((occs seen e.player_id).map (fun y => y.score)).sum with hS
          set n := (occs seen e.player_id).length with hn
          have hnne : ((n : ℚ)) ≠ 0 := by
            have : (0 : ℚ) < (n : ℚ) := by
              exact_mod_cast Nat.lt_of_lt_of_le Nat.zero_lt_one hn1
            exact ne_of_gt this
          have hnne1 : ((n : ℚ) + 1) ≠ 0 := by
            have : (0 : ℚ) < (n : ℚ) + 1 := by positivity
            exact ne_of_gt this
          rw [List.map_append, List.sum_append, List.length_append]
          simp only [List.map_cons, List.map_nil, List.sum_cons, List.sum_nil,
            List.length_cons, List.length_nil]
          push_cast
          field_simp
          ring
        · have hxe : ¬x.player_id = e.player_id := hres₂ x hx3
          rw [occs_append_one, if_neg (fun hh => hxe hh.symm), List.append_nil]
          exact h3 x (by
            rw [hres]
            exact List.mem_append.2 (Or.inr (List.mem_cons_of_mem r hx3)))
    · intro x hx
      rw [hres'] at hx
      have hget : ∃ x0, x0 ∈ st.1 ∧ x0.player_id = x.player_id ∧
          x0.create_timestamp = x.create_timestamp := by
        rcases List.mem_append.1 hx with hx1 | hx2
        · exact ⟨x, by rw [hres]; exact List.mem_append.2 (Or.inl hx1), rfl, rfl⟩
        · rcases List.mem_cons.1 hx2 with rfl | hx3
          · exact ⟨r, hrmem, rfl, rfl⟩
          · exact ⟨x, by
              rw [hres]
              exact List.mem_append.2 (Or.inr (List.mem_cons_of_mem r hx3)),
              rfl, rfl⟩
      obtain ⟨x0, hx0m, hx0i, hx0t⟩ := hget
      obtain ⟨r0, hf, hri, hrt⟩ := h4 x0 hx0m
      refine ⟨r0, ?_, by rw [hri, hx0i], by rw [hrt, hx0t]⟩
      rw [← hx0i]
      exact find?_append_of_some _ hf

theorem meanInv_fold : ∀ (rest seen : List PlayLog)
    (st : List PlayLog × (String → Nat)), MeanInv seen st →
    MeanInv (seen ++ rest) (rest.foldl meanStep st) := by
  intro rest
  induction rest with
  | nil =>
    intro seen st h
    simpa using h
  | cons e t ih =>
    intro seen st h
    have h2 := ih (seen ++ [e]) _ (meanStep_inv h e)
    simpa [List.append_assoc] using h2

theorem meanInv_init : MeanInv [] ([], fun _ => 0) := by
  refine ⟨?_, ?_, ?_, ?_⟩
  · intro pid
    simp [occs]
  · simp [dedupFirst_nil]
  · intro r hr
    simp at hr
  · intro r hr
    simp at hr

theorem mean_inv (l : List PlayLog) :
    MeanInv l (l.foldl meanStep ([], fun _ => 0)) := by
  have h := meanInv_fold l [] _ meanInv_init
  simpa using h

/-- C8: the output of `mean` has one record per distinct player id (the ids
are pairwise distinct) and the ids appear in the order each player id was
first observed in the input. -/
theorem C8_mean_unique_first_seen (l : List PlayLog) :
    ((mean l).map (fun r => r.player_id)).Nodup ∧
    (mean l).map (fun r => r.player_id) =
      dedupFirst (l.map (fun r => r.player_id)) := by
  obtain ⟨-, h2, -, -⟩ := mean_inv l
  have h2' : (mean l).map (fun r => r.player_id) =
      dedupFirst (l.map (fun r => r.player_id)) := h2
  refine ⟨?_, h2'⟩
  rw [h2']
  exact dedupFirst_nodup _

/-- C3: for every player occurring in the input, the record produced by
`mean` for that player carries exactly the arithmetic mean of the player's
scores, `sum / count` (scores are idealized as exact rationals, so the value
is exact; the incremental update `m/(k+1)*k + s/(k+1)` of lines 84–87 agrees
with the batch formula). -/
theorem C3_mean_score (l : List PlayLog) (pid : String)
    (h : occs l pid ≠ []) :
    ∃ r, (mean l).find? (fun x => x.player_id = pid) = some r ∧
      r.score = ((occs l pid).map (fun x => x.score)).sum /
        ((occs l pid).length : ℚ) := by
  obtain ⟨-, h2, h3, -⟩ := mean_inv l
  have hpid_mem : pid ∈ (mean l).map (fun r => r.player_id) := by
    have hml : pid ∈ l.map (fun r => r.player_id) := by
      by_cases hm : pid ∈ l.map (fun r => r.player_id)
      · exact hm
      · exact absurd (occs_eq_nil_iff.2 hm) h
    have h2' : (mean l).map (fun r => r.player_id) =
        dedupFirst (l.map (fun r => r.player_id)) := h2
    rw [h2']
    exact mem_dedupFirst.2 hml
  obtain ⟨r, hr, hrid⟩ := List.mem_map.1 hpid_mem
  have hfind : ∃ rf, (mean l).find? (fun x => x.player_id = pid) = some rf := by
    rw [← Option.isSome_iff_exists, List.find?_isSome]
    exact ⟨r, hr, by simp [hrid]⟩
  obtain ⟨rf, hfind⟩ := hfind
  have hrfmem : rf ∈ mean l := List.mem_of_find?_eq_some hfind
  have hrfid : rf.player_id = pid := by
    have hp := List.find?_some hfind
    simpa using hp
  refine ⟨rf, hfind, ?_⟩
  have h3' := h3 rf hrfmem
  rw [hrfid] at h3'
  exact h3'

/-- Witness for C3 at the spec's aggregation example. -/
theorem C3_witness :
    ∃ r, (mean [⟨"a", 100, 0⟩, ⟨"a", 200, 1⟩, ⟨"b", 50, 2⟩]).find?
        (fun x => x.player_id = "a") = some r ∧
      r.score = ((occs [⟨"a", 100, 0⟩, ⟨"a", 200, 1⟩, ⟨"b", 50, 2⟩] "a").map
          (fun x => x.score)).sum /
        ((occs [⟨"a", 100, 0⟩, ⟨"a", 200, 1⟩, ⟨"b", 50, 2⟩] "a").length : ℚ) :=
  C3_mean_score [⟨"a", 100, 0⟩, ⟨"a", 200, 1⟩, ⟨"b", 50, 2⟩] "a" (by decide)

/-- C10: `mean` modifies only the score: every output record keeps the
player id and creation timestamp of the first input record for that player
(only `set_score` is applied to the pushed clone). -/
theorem C10_mean_preserves_identity (l : List PlayLog) (r : PlayLog)
    (h : r ∈ mean l) :
    ∃ r0, l.find? (fun x => x.player_id = r.player_id) = some r0 ∧
      r0.player_id = r.player_id ∧ r0.create_timestamp = r.create_timestamp := by
  obtain ⟨-, -, -, h4⟩ := mean_inv l
  exact h4 r h

/-- Witness for C10 on a two-player input. -/
theorem C10_witness :
    ∃ r0, ([⟨"a", 1, 5⟩, ⟨"b", 2, 6⟩] : List PlayLog).find?
        (fun x => x.player_id = (⟨"a", 1, 5⟩ : PlayLog).player_id) = some r0 ∧
      r0.player_id = (⟨"a", 1, 5⟩ : PlayLog).player_id ∧
      r0.create_timestamp = (⟨"a", 1, 5⟩ : PlayLog).create_timestamp :=
  C10_mean_preserves_identity [⟨"a", 1, 5⟩, ⟨"b", 2, 6⟩] ⟨"a", 1, 5⟩ (by decide)

/-- C9: a date-plus-hour cell and a date-plus-hour-plus-minute cell are
zero-padded and deserialize with the missing minutes/seconds as `00`, but a
bare date cell `YYYY/MM/DD` does **not** deserialize: the padding loop turns
it into `"YYYY/MM/DD:00:00"`, which has no separator before the hour field,
so `parse_from_str` with `"%Y/%m/%d %H:%M:%S"` rejects it (the `%H` scanner
meets `':'`).  The first conjunct evaluates the code at the failing input;
the rest confirm the zero-padding behaviour the claim describes for the
other two shapes. -/
theorem C9_datetime_padding :
    deserializeDT "2021/01/01" = none ∧
    deserializeDT "2021/01/01 12" = some ⟨2021, 1, 1, 12, 0, 0⟩ ∧
    deserializeDT "2021/01/01 12:34" = some ⟨2021, 1, 1, 12, 34, 0⟩ ∧
    deserializeDT "2021/01/01 12:34:56" = some ⟨2021, 1, 1, 12, 34, 56⟩ :=
  ⟨by decide, by decide, by decide, by decide⟩

/-- Sanity check against the spec's tie example: on aggregated records
`[("a",1000),("b",1000),("c",500)]` with `topK = 1`, both rank-1 entries are
returned and `"c"` is excluded. -/
theorem sanity_tie_example :
    resList [⟨"a", 1000, 0⟩, ⟨"b", 1000, 0⟩, ⟨"c", 500, 0⟩] 1 =
      [(1, ⟨"a", 1000, 0⟩), (1, ⟨"b", 1000, 0⟩)] := by decide

/-- Sanity check of the round-half-away-from-zero model of `f64::round`. -/
theorem sanity_roundQ :
    roundQ (mkRat 3 5) = 1 ∧ roundQ (mkRat 7 5) = 1 ∧
    roundQ (mkRat (-1) 2) = -1 ∧ roundQ (mkRat 1 2) = 1 := by
  refine ⟨by decide, by decide, by decide, by decide⟩

end PlayRanking
